import Mathlib

set_option maxHeartbeats 1000000
set_option maxRecDepth 100000

/-! Verification of the persistent RAM console ring buffer
(`drivers/staging/android/ram_console.c`).

The store is a header (`sig`, `start`, `size`) followed by a data area of
`ram_console_buffer_size` bytes (called `cap` below).  Bytes are modelled as
natural numbers; the data area is a total function `ℕ → ℕ` of which only the
indices `< cap` are meaningful.  The header fields `start`/`size` are
`uint32_t` in the source; all values reached here stay below the data
capacity plus one, so plain `ℕ` arithmetic is exact for any realistic
capacity (below `2^31`).  `size_t` arithmetic in `ram_console_init`, where
underflow genuinely matters, is modelled with an explicit `% 2^64`. -/

/-- Header and data region, `struct ram_console_buffer` (ram_console.c:50-55).
`data` is the flexible array member holding the circular data area. -/
structure ram_console_buffer where
  sig : ℕ
  start : ℕ
  size : ℕ
  data : ℕ → ℕ

/-- The magic constant RAM_CONSOLE_SIG (ram_console.c:57). -/
def RAM_CONSOLE_SIG : ℕ := 0x43474244

/-- Byte `i` of a byte list, 0 past the end (C buffers are read only inside
their bounds; the default is never observable in the theorems below). -/
def byteAt (l : List ℕ) (i : ℕ) : ℕ := l.getD i 0

/-- Model of `memcpy(d + off, s, s.length)` acting on a byte store `d : ℕ → ℕ`. -/
def memcpy (d : ℕ → ℕ) (off : ℕ) (s : List ℕ) : ℕ → ℕ :=
  fun i => if off ≤ i ∧ i < off + s.length then byteAt s (i - off) else d i

/-- Model of `ram_console_update` (ram_console.c:98-120), non-ECC configuration:
a single `memcpy` of `s` into the data area at offset `buffer->start`. -/
def ram_console_update (st : ram_console_buffer) (s : List ℕ) : ram_console_buffer :=
  { st with data := memcpy st.data st.start s }

/-- The input clamp of `ram_console_write` (ram_console.c:139-142): when
`count > ram_console_buffer_size`, advance `s` so that only the last
`ram_console_buffer_size` bytes remain. -/
def clampTail (cap : ℕ) (s0 : List ℕ) : List ℕ :=
  if s0.length > cap then s0.drop (s0.length - cap) else s0

/-- Model of `ram_console_write` (ram_console.c:133-157), non-ECC configuration.
`cap` is the global `ram_console_buffer_size`.  The input clamp, the split
into (at most) two physical copies, and the `start`/`size` header update
follow the source line by line; the C tail shared by both branches is
duplicated in each branch. -/
def ram_console_write (cap : ℕ) (st : ram_console_buffer) (s0 : List ℕ) : ram_console_buffer :=
  let s := clampTail cap s0
  let rem := cap - st.start
  if rem < s.length then
    let st2 := { ram_console_update st (s.take rem) with start := 0, size := cap }
    let st3 := ram_console_update st2 (s.drop rem)
    { st3 with start := st3.start + (s.drop rem).length,
               size := if st3.size < cap then st3.size + (s.drop rem).length else st3.size }
  else
    let st3 := ram_console_update st s
    { st3 with start := st3.start + s.length,
               size := if st3.size < cap then st3.size + s.length else st3.size }

/-- A sequence of console writes (`ram_console.c` registers
`ram_console_write` as the console `write` callback; calls are serialized). -/
def ram_console_writeAll (cap : ℕ) (st : ram_console_buffer) (ws : List (List ℕ)) :
    ram_console_buffer :=
  ws.foldl (ram_console_write cap) st

/-- The logical content of the store: the `size` bytes ending at position
`start`, read circularly (spec §3: "logical content is always the most
recent `size` bytes ending at `start`"). -/
def logicalContent (cap : ℕ) (st : ram_console_buffer) : List ℕ :=
  (List.range st.size).map (fun i => st.data ((st.start + (cap - st.size) + i) % cap))

theorem byteAt_append_left {l l' : List ℕ} {i : ℕ} (h : i < l.length) :
    byteAt (l ++ l') i = byteAt l i := by
  simp [byteAt, List.getD, List.getElem?_append, h]

theorem byteAt_append_right {l l' : List ℕ} {i : ℕ} (h : l.length ≤ i) :
    byteAt (l ++ l') i = byteAt l' (i - l.length) := by
  simp [byteAt, List.getD, List.getElem?_append_right h]

theorem byteAt_drop (l : List ℕ) (m i : ℕ) : byteAt (l.drop m) i = byteAt l (m + i) := by
  simp [byteAt, List.getD, List.getElem?_drop]

theorem byteAt_take {l : List ℕ} {m i : ℕ} (h : i < m) :
    byteAt (l.take m) i = byteAt l i := by
  simp [byteAt, List.getD, List.getElem?_take, h]

theorem byteAt_eq_getElem {l : List ℕ} {i : ℕ} (h : i < l.length) :
    byteAt l i = l[i] := by
  simp [byteAt, List.getD, List.getElem?_eq_getElem h]

theorem memcpy_lt {d : ℕ → ℕ} {off : ℕ} {s : List ℕ} {i : ℕ} (h : i < off) :
    memcpy d off s i = d i := by
  simp only [memcpy]
  rw [if_neg]
  omega

theorem memcpy_ge {d : ℕ → ℕ} {off : ℕ} {s : List ℕ} {i : ℕ} (h : off + s.length ≤ i) :
    memcpy d off s i = d i := by
  simp only [memcpy]
  rw [if_neg]
  omega

theorem memcpy_mid {d : ℕ → ℕ} {off : ℕ} {s : List ℕ} {i : ℕ}
    (h1 : off ≤ i) (h2 : i < off + s.length) :
    memcpy d off s i = byteAt s (i - off) := by
  simp only [memcpy]
  rw [if_pos ⟨h1, h2⟩]

/-- Closed form of `ram_console_write`: the wrap branch ends with
`start = count - rem` and `size = cap`; the straight branch advances
`start` by the clamped count and saturates `size`. -/
theorem ram_console_write_eq (cap : ℕ) (st : ram_console_buffer) (s0 : List ℕ) :
    ram_console_write cap st s0 =
      if cap - st.start < (clampTail cap s0).length then
        { sig := st.sig,
          start := (clampTail cap s0).length - (cap - st.start),
          size := cap,
          data := memcpy (memcpy st.data st.start ((clampTail cap s0).take (cap - st.start))) 0
                    ((clampTail cap s0).drop (cap - st.start)) }
      else
        { sig := st.sig,
          start := st.start + (clampTail cap s0).length,
          size := if st.size < cap then st.size + (clampTail cap s0).length else st.size,
          data := memcpy st.data st.start (clampTail cap s0) } := by
  simp only [ram_console_write, ram_console_update]
  split_ifs with h1 h2 <;>
    simp only [List.length_drop, Nat.zero_add, lt_self_iff_false, if_false] <;>
    (congr 1 <;> omega)

theorem clampTail_length (cap : ℕ) (s0 : List ℕ) :
    (clampTail cap s0).length = min s0.length cap := by
  unfold clampTail
  split <;> simp <;> omega

theorem clampTail_byteAt (cap : ℕ) (s0 : List ℕ) (m : ℕ) :
    byteAt (clampTail cap s0) m = byteAt s0 (s0.length - min s0.length cap + m) := by
  unfold clampTail
  split
  · rw [byteAt_drop]
    congr 1
    omega
  · congr 1
    omega

/-- Ghost invariant tying a store state to the full history `hist` of bytes
ever passed to `ram_console_write`: `size` is the saturated history length,
`start` stays in `[0, cap]` and equals `size` until the buffer first fills,
and the circular window of `size` bytes ending at `start` holds the last
`size` bytes of the history. -/
def WriteInv (cap : ℕ) (st : ram_console_buffer) (hist : List ℕ) : Prop :=
  st.size = min hist.length cap ∧
  st.start ≤ cap ∧
  (st.size < cap → st.start = st.size) ∧
  ∀ i < st.size,
    st.data ((st.start + (cap - st.size) + i) % cap) =
      byteAt hist (hist.length - st.size + i)

theorem mod_eq_sub_of_lt_two_mul {cap E : ℕ} (h1 : cap ≤ E) (h2 : E < 2 * cap) :
    E % cap = E - cap := by
  rw [Nat.mod_eq_sub_mod h1, Nat.mod_eq_of_lt (by omega)]

/-- One step of the ring-buffer simulation: a console write extends the
history, and the state keeps tracking the last `min history cap` bytes. -/
theorem writeInv_step {cap : ℕ} (hcap : 0 < cap) (st : ram_console_buffer)
    (hist s0 : List ℕ) (h : WriteInv cap st hist) :
    WriteInv cap (ram_console_write cap st s0) (hist ++ s0) := by
  obtain ⟨hsz, hstart, hlin, hdata⟩ := h
  rw [ram_console_write_eq]
  have hslen := clampTail_length cap s0
  have hsbyte := clampTail_byteAt cap s0
  set s := clampTail cap s0 with hsdef
  unfold WriteInv
  simp only [List.length_append]
  by_cases hwrap : cap - st.start < s.length
  · rw [if_pos hwrap]
    rw [hslen] at hwrap
    have hLn : cap ≤ hist.length + s0.length := by
      rcases Nat.lt_or_ge st.size cap with h1 | h1
      · have := hlin h1
        omega
      · omega
    refine ⟨?_, ?_, ?_, ?_⟩
    · simp only
      omega
    · simp only
      omega
    · simp only
      intro h2
      omega
    · simp only
      intro i hi
      rw [hslen]
      have htakelen : (s.take (cap - st.start)).length = cap - st.start := by
        rw [List.length_take]
        omega
      have hdroplen : (s.drop (cap - st.start)).length =
          min s0.length cap - (cap - st.start) := by
        rw [List.length_drop, hslen]
      by_cases hW1 : cap ≤ min s0.length cap - (cap - st.start) + (cap - cap) + i
      · -- index lands in the second physical copy, at the front of the data area
        have hE : (min s0.length cap - (cap - st.start) + (cap - cap) + i) % cap =
            min s0.length cap - (cap - st.start) + i - cap := by
          rw [mod_eq_sub_of_lt_two_mul (by omega) (by omega)] <;> omega
        rw [hE]
        rw [memcpy_mid (by omega) (by rw [hdroplen]; omega)]
        rw [byteAt_drop, hsbyte]
        rw [byteAt_append_right (by omega)]
        congr 1
        omega
      · have hE : (min s0.length cap - (cap - st.start) + (cap - cap) + i) % cap =
            min s0.length cap - (cap - st.start) + i := by
          rw [Nat.mod_eq_of_lt (by omega)] <;> omega
        rw [hE]
        rw [memcpy_ge (by rw [hdroplen]; omega)]
        by_cases hW2 : st.start ≤ min s0.length cap - (cap - st.start) + i
        · -- first physical copy, at the tail of the data area
          rw [memcpy_mid (by omega) (by rw [htakelen]; omega)]
          rw [byteAt_take (by omega), hsbyte]
          rw [byteAt_append_right (by omega)]
          congr 1
          omega
        · -- untouched old bytes below the old start
          rw [memcpy_lt (by omega)]
          rcases Nat.lt_or_ge st.size cap with h1 | h1
          · have hstq := hlin h1
            have h' := hdata (min s0.length cap - (cap - st.start) + i) (by omega)
            rw [show (st.start + (cap - st.size) +
                  (min s0.length cap - (cap - st.start) + i)) % cap =
                  min s0.length cap - (cap - st.start) + i from by
              rw [mod_eq_sub_of_lt_two_mul (by omega) (by omega)] <;> omega] at h'
            rw [h']
            rw [byteAt_append_left (by omega)]
            congr 1
            omega
          · have hfull : st.size = cap := by omega
            have h' := hdata (min s0.length cap + i) (by omega)
            rw [show (st.start + (cap - st.size) + (min s0.length cap + i)) % cap =
                  min s0.length cap - (cap - st.start) + i from by
              rw [mod_eq_sub_of_lt_two_mul (by omega) (by omega)] <;> omega] at h'
            rw [h']
            rw [byteAt_append_left (by omega)]
            congr 1
            omega
  · rw [if_neg hwrap]
    rw [hslen] at hwrap
    refine ⟨?_, ?_, ?_, ?_⟩
    · simp only
      rw [hslen]
      rcases Nat.lt_or_ge st.size cap with h1 | h1
      · rw [if_pos h1]
        have := hlin h1
        omega
      · rw [if_neg (Nat.not_lt.mpr h1)]
        omega
    · simp only
      omega
    · simp only
      rw [hslen]
      split_ifs with h1
      · intro _
        have := hlin h1
        omega
      · intro h2
        omega
    · simp only
      rw [hslen]
      intro i hi
      rcases Nat.lt_or_ge st.size cap with h1 | h1
      · rw [if_pos h1] at hi ⊢
        have hstq := hlin h1
        have hfit : st.start + min s0.length cap ≤ cap := by omega
        have hE : (st.start + min s0.length cap +
            (cap - (st.size + min s0.length cap)) + i) % cap = i := by
          rw [mod_eq_sub_of_lt_two_mul (by omega) (by omega)] <;> omega
        rw [hE]
        by_cases hi1 : i < st.size
        · rw [memcpy_lt (by omega)]
          have h' := hdata i (by omega)
          rw [show (st.start + (cap - st.size) + i) % cap = i from by
            rw [mod_eq_sub_of_lt_two_mul (by omega) (by omega)] <;> omega] at h'
          rw [h']
          rw [byteAt_append_left (by omega)]
          congr 1
          omega
        · rw [memcpy_mid (by omega) (by rw [hslen]; omega)]
          rw [hsbyte]
          rw [byteAt_append_right (by omega)]
          congr 1
          omega
      · have hfull : st.size = cap := by omega
        rw [if_neg (Nat.not_lt.mpr h1)] at hi ⊢
        by_cases ha : st.start + min s0.length cap + (cap - st.size) + i < cap
        · have hE : (st.start + min s0.length cap + (cap - st.size) + i) % cap =
              st.start + min s0.length cap + i := by
            rw [Nat.mod_eq_of_lt (by omega)] <;> omega
          rw [hE]
          rw [memcpy_ge (by rw [hslen]; omega)]
          have h' := hdata (min s0.length cap + i) (by omega)
          rw [show (st.start + (cap - st.size) + (min s0.length cap + i)) % cap =
                st.start + min s0.length cap + i from by
            rw [Nat.mod_eq_of_lt (by omega)] <;> omega] at h'
          rw [h']
          rw [byteAt_append_left (by omega)]
          congr 1
          omega
        · by_cases hb : cap ≤ min s0.length cap + i
          · have hE : (st.start + min s0.length cap + (cap - st.size) + i) % cap =
                st.start + (min s0.length cap + i - cap) := by
              rw [mod_eq_sub_of_lt_two_mul (by omega) (by omega)] <;> omega
            rw [hE]
            rw [memcpy_mid (by omega) (by rw [hslen]; omega)]
            rw [hsbyte]
            rw [byteAt_append_right (by omega)]
            congr 1
            omega
          · have hE : (st.start + min s0.length cap + (cap - st.size) + i) % cap =
                st.start + min s0.length cap + i - cap := by
              rw [mod_eq_sub_of_lt_two_mul (by omega) (by omega)] <;> omega
            rw [hE]
            rw [memcpy_lt (by omega)]
            have h' := hdata (min s0.length cap + i) (by omega)
            rw [show (st.start + (cap - st.size) + (min s0.length cap + i)) % cap =
                  st.start + min s0.length cap + i - cap from by
              rw [mod_eq_sub_of_lt_two_mul (by omega) (by omega)] <;> omega] at h'
            rw [h']
            rw [byteAt_append_left (by omega)]
            congr 1
            omega

/-- The invariant holds of the empty store produced by initialization
(`start = 0`, `size = 0`), whatever the data area holds. -/
theorem writeInv_init (cap g : ℕ) (d : ℕ → ℕ) :
    WriteInv cap ⟨g, 0, 0, d⟩ [] := by
  refine ⟨by simp, by simp, fun _ => rfl, ?_⟩
  intro i hi
  exact absurd hi (by simp)

theorem writeAll_inv {cap : ℕ} (hcap : 0 < cap) (st : ram_console_buffer)
    (hist : List ℕ) (ws : List (List ℕ)) (h : WriteInv cap st hist) :
    WriteInv cap (ram_console_writeAll cap st ws) (hist ++ ws.join) := by
  induction ws generalizing st hist with
  | nil => simpa [ram_console_writeAll] using h
  | cons w ws ih =>
    have h1 := writeInv_step hcap st hist w h
    have h2 := ih _ _ h1
    simpa [ram_console_writeAll, List.foldl_cons, List.append_assoc] using h2

/-- Under the invariant, the logical content is the last `size` bytes of the
write history. -/
theorem logicalContent_eq {cap : ℕ} (st : ram_console_buffer) (hist : List ℕ)
    (h : WriteInv cap st hist) :
    logicalContent cap st = hist.drop (hist.length - st.size) := by
  obtain ⟨hsz, hstart, hlin, hdata⟩ := h
  have hlen : (logicalContent cap st).length = st.size := by
    simp [logicalContent]
  apply List.ext_getElem
  · rw [hlen, List.length_drop]
    omega
  · intro i h1 h2
    rw [← byteAt_eq_getElem h2, byteAt_drop]
    simp only [logicalContent, List.getElem_map, List.getElem_range]
    exact hdata i (by rwa [hlen] at h1)

/-- Claim C1: for every sequence of writes through `ram_console_write`
(starting from the freshly initialized store) whose total length exceeds
`data_capacity`, the logical content afterwards — the `size` bytes ending at
`start`, read circularly — equals exactly the last `data_capacity` bytes
written, in order (and in particular has length `data_capacity`). -/
theorem ram_console_wrap_correctness (cap : ℕ) (hcap : 0 < cap) (g : ℕ)
    (d0 : ℕ → ℕ) (ws : List (List ℕ))
    (htot : cap < (ws.map List.length).sum) :
    logicalContent cap (ram_console_writeAll cap ⟨g, 0, 0, d0⟩ ws) =
      ws.join.drop (ws.join.length - cap) ∧
    (logicalContent cap (ram_console_writeAll cap ⟨g, 0, 0, d0⟩ ws)).length = cap := by
  have hjl : ws.join.length = (ws.map List.length).sum := List.length_join ws
  have hinv := writeAll_inv hcap ⟨g, 0, 0, d0⟩ [] ws (writeInv_init cap g d0)
  rw [List.nil_append] at hinv
  have hsize : (ram_console_writeAll cap ⟨g, 0, 0, d0⟩ ws).size = cap := by
    have h1 := hinv.1
    omega
  refine ⟨?_, ?_⟩
  · rw [logicalContent_eq _ _ hinv, hsize]
  · simp [logicalContent, hsize]

theorem ram_console_wrap_correctness_witness :
    logicalContent 2 (ram_console_writeAll 2 ⟨0, 0, 0, fun _ => 0⟩ [[1, 2, 3]]) =
      [2, 3] := by
  have h := ram_console_wrap_correctness 2 (by decide) 0 (fun _ => 0) [[1, 2, 3]]
    (by decide)
  rw [h.1]
  decide

/-- Claim C2 as stated is false on the code: from the freshly initialized
store (`start = 0`, `size = 0`, satisfying the header invariants), a write
of exactly `data_capacity` bytes leaves `start = data_capacity`, not
`(start + min n cap) mod cap = 0`, and the postcondition
`start < data_capacity` fails. -/
theorem ram_console_start_eq_cap_counterexample :
    (ram_console_write 4 ⟨0, 0, 0, fun _ => 0⟩ [1, 1, 1, 1]).start = 4 ∧
    (0 + min ([1, 1, 1, 1] : List ℕ).length 4) % 4 = 0 ∧
    ¬ (ram_console_write 4 ⟨0, 0, 0, fun _ => 0⟩ [1, 1, 1, 1]).start < 4 := by
  decide

/-- Claim C2 (amended): from a reachable header state (`start ≤ cap`,
`size ≤ cap`, and `start = size` until the buffer first fills), a write of
`n` bytes yields `size = min (size + n) cap` and a new `start` congruent to
`start + min n cap` modulo `cap` with `start ≤ cap`; `start = cap` (rather
than 0) is reached when the write ends exactly at the end of the data area,
and is treated as position 0 by the next write. -/
theorem ram_console_header_update (cap : ℕ) (st : ram_console_buffer)
    (s0 : List ℕ) (hstart : st.start ≤ cap) (hsize : st.size ≤ cap)
    (hlin : st.size < cap → st.start = st.size) :
    (ram_console_write cap st s0).start % cap =
      (st.start + min s0.length cap) % cap ∧
    (ram_console_write cap st s0).start ≤ cap ∧
    (ram_console_write cap st s0).size = min (st.size + s0.length) cap := by
  have hkey : st.start = st.size ∨ st.size = cap := by
    rcases Nat.lt_or_ge st.size cap with h1 | h1
    · exact Or.inl (hlin h1)
    · exact Or.inr (by omega)
  rw [ram_console_write_eq]
  have hslen := clampTail_length cap s0
  by_cases hwrap : cap - st.start < (clampTail cap s0).length
  · rw [if_pos hwrap]
    rw [hslen] at hwrap
    simp only
    rw [hslen]
    refine ⟨?_, by omega, by rcases hkey with hk | hk <;> omega⟩
    conv_rhs => rw [Nat.mod_eq_sub_mod (show cap ≤ st.start + min s0.length cap by omega)]
    congr 1
    omega
  · rw [if_neg hwrap]
    rw [hslen] at hwrap
    simp only
    rw [hslen]
    refine ⟨rfl, by omega, ?_⟩
    split_ifs with h1
    · have := hlin h1
      omega
    · rcases hkey with hk | hk <;> omega

theorem ram_console_header_update_witness :
    (ram_console_write 4 ⟨0, 1, 1, fun _ => 0⟩ [5, 6]).start % 4 =
      (1 + min ([5, 6] : List ℕ).length 4) % 4 ∧
    (ram_console_write 4 ⟨0, 1, 1, fun _ => 0⟩ [5, 6]).start ≤ 4 ∧
    (ram_console_write 4 ⟨0, 1, 1, fun _ => 0⟩ [5, 6]).size =
      min (1 + ([5, 6] : List ℕ).length) 4 :=
  ram_console_header_update 4 ⟨0, 1, 1, fun _ => 0⟩ [5, 6] (by decide) (by decide)
    (by decide)

/-- Claim C5 as stated is false on the code: in the scenario (data capacity
1024, no ECC) "write AAAA then 1024 bytes of B", the final `start` is 4,
not 0 (the second write wraps and ends 4 bytes past the front). -/
theorem ram_console_scenario_start_counterexample :
    (ram_console_writeAll 1024 ⟨0, 0, 0, fun _ => 0⟩
        [[65, 65, 65, 65], List.replicate 1024 66]).start = 4 ∧
    ¬ (ram_console_writeAll 1024 ⟨0, 0, 0, fun _ => 0⟩
        [[65, 65, 65, 65], List.replicate 1024 66]).start = 0 := by
  constructor
  · rfl
  · decide

/-- Claim C5 (amended): writing "AAAA" then 1024 bytes of "B" into a store
of data capacity 1024 leaves the logical content equal to exactly 1024
bytes of "B" (the "AAAA" fully evicted) and `size = 1024`, but
`start = 4`, not 0. -/
theorem ram_console_scenario_eviction :
    logicalContent 1024 (ram_console_writeAll 1024 ⟨0, 0, 0, fun _ => 0⟩
        [[65, 65, 65, 65], List.replicate 1024 66]) = List.replicate 1024 66 ∧
    (ram_console_writeAll 1024 ⟨0, 0, 0, fun _ => 0⟩
        [[65, 65, 65, 65], List.replicate 1024 66]).size = 1024 ∧
    (ram_console_writeAll 1024 ⟨0, 0, 0, fun _ => 0⟩
        [[65, 65, 65, 65], List.replicate 1024 66]).start = 4 := by
  have hinv := writeAll_inv (show (0 : ℕ) < 1024 by norm_num) ⟨0, 0, 0, fun _ => 0⟩ []
    [[65, 65, 65, 65], List.replicate 1024 66]
    (writeInv_init 1024 0 (fun _ => 0))
  rw [List.nil_append] at hinv
  have hjoin : ([[65, 65, 65, 65], List.replicate 1024 66] : List (List ℕ)).join =
      [65, 65, 65, 65] ++ List.replicate 1024 66 := by
    simp
  have hjlen : ([[65, 65, 65, 65], List.replicate 1024 66] : List (List ℕ)).join.length =
      1028 := by
    rw [hjoin]
    simp
  have hsize : (ram_console_writeAll 1024 ⟨0, 0, 0, fun _ => 0⟩
      [[65, 65, 65, 65], List.replicate 1024 66]).size = 1024 := by
    have h1 := hinv.1
    rw [hjlen] at h1
    omega
  refine ⟨?_, hsize, ?_⟩
  · rw [logicalContent_eq _ _ hinv, hsize, hjlen, hjoin]
    rw [show (1028 - 1024 : ℕ) = ([65, 65, 65, 65] : List ℕ).length from rfl]
    exact List.drop_left _ _
  · rfl

/-- `sizeof(struct ram_console_buffer)`: three `uint32_t` fields and an
empty flexible array member, 12 bytes. -/
def sizeof_ram_console_buffer : ℕ := 12

/-- Wrapping `size_t` subtraction (64-bit): `a - b` modulo `2^64`, as in
`ram_console_buffer_size = buffer_size - sizeof(struct ram_console_buffer)`
(ram_console.c:254-255). -/
def sub64 (a b : ℕ) : ℕ := (a + (2 ^ 64 - b % 2 ^ 64)) % 2 ^ 64

/-- Kernel macro `DIV_ROUND_UP(n, d)`: `(n + d - 1) / d`. -/
def DIV_ROUND_UP (n d : ℕ) : ℕ := (n + d - 1) / d

/-- Model of `ram_console_save_old` (ram_console.c:174-243), non-ECC configuration.
`dest_given` is whether the caller passed a destination buffer (`dest !=
NULL`); `alloc_ok` is whether the `kmalloc` fallback succeeds.  On
allocation failure the function returns without recording an old log
(`none`); otherwise the recovered log is the two `memcpy`s of
ram_console.c:234-237 — `size - start` bytes from `data[start]`, then
`start` bytes from `data[0]` — read back out of the destination buffer. -/
def ram_console_save_old (buffer : ram_console_buffer) (dest_given alloc_ok : Bool) :
    Option (List ℕ) :=
  if dest_given = false ∧ alloc_ok = false then none
  else
    let d1 := memcpy (fun _ => 0) 0
      ((List.range (buffer.size - buffer.start)).map (fun i => buffer.data (buffer.start + i)))
    let d2 := memcpy d1 (buffer.size - buffer.start)
      ((List.range buffer.start).map (fun i => buffer.data i))
    some ((List.range buffer.size).map d2)

/-- Result of `ram_console_init` (ram_console.c:245-330), non-ECC
configuration: the final contents of the backing region, the computed
`ram_console_buffer_size` global (`data_capacity`), the recovered old log
(`ram_console_old_log`, `none` when no recovery ran or allocation failed),
whether `register_console` ran, and the C return value. -/
structure ram_console_init_result where
  buffer : ram_console_buffer
  data_capacity : ℕ
  old_log : Option (List ℕ)
  registered : Bool
  ret : ℤ

/-- Model of `ram_console_init` (ram_console.c:245-330), non-ECC configuration,
line by line: compute `ram_console_buffer_size` with wrapping `size_t`
subtraction; abort (leaving the region untouched and the console
unregistered) if it exceeds `buffer_size`; recover the old log when the
signature matches and the header is consistent; then reset the header and
register the console.  Every return statement in the source is `return 0`. -/
def ram_console_init (buffer : ram_console_buffer) (buffer_size : ℕ)
    (dest_given alloc_ok : Bool) : ram_console_init_result :=
  let cap := sub64 buffer_size sizeof_ram_console_buffer
  if cap > buffer_size then
    { buffer := buffer, data_capacity := cap, old_log := none,
      registered := false, ret := 0 }
  else
    let old_log :=
      if buffer.sig = RAM_CONSOLE_SIG then
        if buffer.size > cap ∨ buffer.start > buffer.size then none
        else ram_console_save_old buffer dest_given alloc_ok
      else none
    { buffer := { buffer with sig := RAM_CONSOLE_SIG, start := 0, size := 0 },
      data_capacity := cap, old_log := old_log, registered := true, ret := 0 }

/-- Return value of `ram_console_init` in the ECC configuration
(ram_console.c:245-330 with CONFIG_ANDROID_RAM_CONSOLE_ERROR_CORRECTION):
only the return structure is modelled here — the two capacity checks
(ram_console.c:257, 268) and the `init_rs` allocation check
(ram_console.c:282) each `return 0`, and the function body contains no
other return statement before the final `return 0` (ram_console.c:329);
its side effects are modelled by `ram_console_init` and the ECC write
model below. -/
def ram_console_init_ecc_ret (buffer_size bs esz : ℕ) (rs_ok : Bool) : ℤ :=
  let cap1 := sub64 buffer_size sizeof_ram_console_buffer
  if cap1 > buffer_size then 0
  else
    let cap2 := sub64 cap1 ((DIV_ROUND_UP cap1 bs + 1) * esz)
    if cap2 > buffer_size then 0
    else if rs_ok = false then 0
    else 0

/-- Model of `ram_console_read_old` (ram_console.c:420-435): offset-based read of
the immutable recovered log; returns the bytes delivered to the caller and
the updated file offset. -/
def ram_console_read_old (old_log : List ℕ) (len offset : ℕ) : List ℕ × ℕ :=
  if old_log.length ≤ offset then ([], offset)
  else
    let count := min len (old_log.length - offset)
    ((old_log.drop offset).take count, offset + count)

/-- The recovered byte sequence as the spec describes it:
`data[p : p + (s-p)]` concatenated with `data[0 : p]`. -/
def specRecovered (p s : ℕ) (data : ℕ → ℕ) : List ℕ :=
  (List.range (s - p)).map (fun i => data (p + i)) ++ (List.range p).map data

theorem byteAt_range_map (f : ℕ → ℕ) {k i : ℕ} (h : i < k) :
    byteAt ((List.range k).map f) i = f i := by
  rw [byteAt_eq_getElem (by simpa)]
  simp

theorem sub64_sizeof {bsz : ℕ} (h64 : bsz < 2 ^ 64) (h12 : 12 ≤ bsz) :
    sub64 bsz sizeof_ram_console_buffer = bsz - 12 := by
  unfold sub64 sizeof_ram_console_buffer
  have hp : (2 : ℕ) ^ 64 = 18446744073709551616 := by norm_num
  rw [hp]
  omega

theorem sub64_sizeof_lt {bsz : ℕ} (hlt : bsz < 12) :
    bsz < sub64 bsz sizeof_ram_console_buffer := by
  unfold sub64 sizeof_ram_console_buffer
  have hp : (2 : ℕ) ^ 64 = 18446744073709551616 := by norm_num
  rw [hp]
  omega

/-- Claim C3: for every prior header with `start = p`, `size = s`,
`p ≤ s ≤ data_capacity`, and any data-area content,
`ram_console_save_old` materializes exactly
`data[p : p + (s-p)] ++ data[0 : p]`, of total length `s`
(non-ECC configuration: no diagnostic trailer). -/
theorem ram_console_save_old_correct (cap p s g : ℕ) (d : ℕ → ℕ)
    (dest_given alloc_ok : Bool) (hps : p ≤ s) (hsc : s ≤ cap)
    (hok : dest_given = true ∨ alloc_ok = true) :
    ram_console_save_old ⟨g, p, s, d⟩ dest_given alloc_ok =
      some (specRecovered p s d) ∧ (specRecovered p s d).length = s := by
  have hlen : (specRecovered p s d).length = s := by
    simp only [specRecovered, List.length_append, List.length_map, List.length_range]
    omega
  refine ⟨?_, hlen⟩
  unfold ram_console_save_old
  rw [if_neg (by rcases hok with h | h <;> simp [h])]
  simp only
  congr 1
  apply List.ext_getElem
  · simp [hlen]
  · intro i h1 h2
    simp only [List.getElem_map, List.getElem_range]
    rw [← byteAt_eq_getElem h2]
    have h1' : i < s := by simpa using h1
    by_cases hi : i < s - p
    · rw [memcpy_lt (by omega)]
      rw [memcpy_mid (by omega) (by simp; omega)]
      rw [show i - 0 = i from by omega]
      rw [byteAt_range_map _ (by omega)]
      unfold specRecovered
      rw [byteAt_append_left (by simp; omega)]
      rw [byteAt_range_map _ (by omega)]
    · rw [memcpy_mid (by omega) (by simp; omega)]
      rw [byteAt_range_map _ (by omega)]
      unfold specRecovered
      rw [byteAt_append_right (by simp; omega)]
      rw [show i - ((List.range (s - p)).map fun i => d (p + i)).length = i - (s - p)
        from by simp]
      rw [byteAt_range_map _ (by omega)]

theorem ram_console_save_old_correct_witness :
    ram_console_save_old ⟨0, 1, 3, fun i => i⟩ true false = some [1, 2, 0] := by
  have h := (ram_console_save_old_correct 4 1 3 0 (fun i => i) true false
    (by decide) (by decide) (Or.inl rfl)).1
  rw [h]
  decide

/-- Claim C4 as stated is false on the code: an initialization call that
aborts for insufficient capacity (here `buffer_size = 4 < 12`) returns
without touching the region, so the live header still reads the old
`start = 7`, not 0. -/
theorem ram_console_init_no_rearm_counterexample :
    (ram_console_init ⟨0, 7, 9, fun _ => 0⟩ 4 false true).buffer.start = 7 ∧
    ¬ (ram_console_init ⟨0, 7, 9, fun _ => 0⟩ 4 false true).buffer.start = 0 := by
  decide

/-- Claim C4 (amended): after every `ram_console_init` call that passes the
capacity check (`buffer_size ≥ 12`, so the reservation fits) — whether or
not recovery ran or succeeded — the live header reads `sig = MAGIC`,
`start = 0`, `size = 0`. -/
theorem ram_console_init_rearm (buffer : ram_console_buffer) (bsz : ℕ)
    (dg ak : Bool) (h64 : bsz < 2 ^ 64) (h12 : 12 ≤ bsz) :
    (ram_console_init buffer bsz dg ak).buffer.sig = RAM_CONSOLE_SIG ∧
    (ram_console_init buffer bsz dg ak).buffer.start = 0 ∧
    (ram_console_init buffer bsz dg ak).buffer.size = 0 := by
  simp only [ram_console_init]
  rw [sub64_sizeof h64 h12, if_neg (by omega)]
  exact ⟨rfl, rfl, rfl⟩

theorem ram_console_init_rearm_witness :
    (ram_console_init ⟨5, 7, 9, fun _ => 0⟩ 12 false false).buffer.sig =
      RAM_CONSOLE_SIG ∧
    (ram_console_init ⟨5, 7, 9, fun _ => 0⟩ 12 false false).buffer.start = 0 ∧
    (ram_console_init ⟨5, 7, 9, fun _ => 0⟩ 12 false false).buffer.size = 0 :=
  ram_console_init_rearm ⟨5, 7, 9, fun _ => 0⟩ 12 false false (by norm_num)
    (by norm_num)

/-- Claim C6: when the signature does not match or the header is
inconsistent (`size > data_capacity` or `start > size`), initialization
performs no recovery — the recovered log stays empty — and, whenever the
capacity check passes, initialization still completes and registers the
console (the condition is "nothing to recover", not a failure). -/
theorem ram_console_no_recovery_on_invalid (buffer : ram_console_buffer)
    (bsz : ℕ) (dg ak : Bool)
    (hbad : buffer.sig ≠ RAM_CONSOLE_SIG ∨
      sub64 bsz sizeof_ram_console_buffer < buffer.size ∨
      buffer.size < buffer.start) :
    (ram_console_init buffer bsz dg ak).old_log = none ∧
    (bsz < 2 ^ 64 → 12 ≤ bsz →
      (ram_console_init buffer bsz dg ak).registered = true) := by
  simp only [ram_console_init]
  by_cases habort : sub64 bsz sizeof_ram_console_buffer > bsz
  · rw [if_pos habort]
    refine ⟨rfl, ?_⟩
    intro h64 h12
    exfalso
    rw [sub64_sizeof h64 h12] at habort
    omega
  · rw [if_neg habort]
    refine ⟨?_, fun _ _ => rfl⟩
    simp only
    by_cases hsig : buffer.sig = RAM_CONSOLE_SIG
    · rw [if_pos hsig, if_pos (show buffer.size > sub64 bsz sizeof_ram_console_buffer ∨
        buffer.start > buffer.size from by
          rcases hbad with h | h | h
          · exact absurd hsig h
          · exact Or.inl h
          · exact Or.inr h)]
    · rw [if_neg hsig]

theorem ram_console_no_recovery_on_invalid_witness :
    (ram_console_init ⟨0, 0, 0, fun _ => 0⟩ 16 false true).old_log = none ∧
    ((16 : ℕ) < 2 ^ 64 → 12 ≤ (16 : ℕ) →
      (ram_console_init ⟨0, 0, 0, fun _ => 0⟩ 16 false true).registered = true) :=
  ram_console_no_recovery_on_invalid ⟨0, 0, 0, fun _ => 0⟩ 16 false true
    (Or.inl (by decide))

/-- Claim C7: `ram_console_read_old` returns `min(len, length - offset)`
bytes of the recovered log starting at `offset` when `offset < length`
(advancing the file offset by that count), and zero bytes when the offset
is at or past the end; the log itself is a value the read never mutates,
so repeated reads at the same offset return the same bytes. -/
theorem ram_console_read_old_correct (old_log : List ℕ) (len offset : ℕ) :
    (offset < old_log.length →
      (ram_console_read_old old_log len offset).1 =
        (old_log.drop offset).take (min len (old_log.length - offset)) ∧
      (ram_console_read_old old_log len offset).1.length =
        min len (old_log.length - offset) ∧
      (ram_console_read_old old_log len offset).2 =
        offset + min len (old_log.length - offset)) ∧
    (old_log.length ≤ offset →
      (ram_console_read_old old_log len offset).1 = [] ∧
      (ram_console_read_old old_log len offset).2 = offset) := by
  constructor
  · intro h
    unfold ram_console_read_old
    rw [if_neg (by omega)]
    refine ⟨rfl, ?_, rfl⟩
    simp only [List.length_take, List.length_drop]
    omega
  · intro h
    unfold ram_console_read_old
    rw [if_pos h]
    exact ⟨rfl, rfl⟩

theorem ram_console_read_old_correct_witness :
    (ram_console_read_old [1, 2, 3] 2 1).1 =
      (([1, 2, 3] : List ℕ).drop 1).take (min 2 (([1, 2, 3] : List ℕ).length - 1)) ∧
    (ram_console_read_old ([] : List ℕ) 5 0).1 = [] :=
  ⟨((ram_console_read_old_correct [1, 2, 3] 2 1).1 (by decide)).1,
   ((ram_console_read_old_correct [] 5 0).2 (by decide)).1⟩

/-- Claim C8: when the header reservation would make the usable data
capacity negative (`buffer_size < 12`, detected through the wrapped
`size_t` subtraction), initialization aborts: the console is not
registered (no write is ever accepted), the region is left unmodified, no
recovery runs, and the function returns normally (no crash). -/
theorem ram_console_insufficient_capacity (buffer : ram_console_buffer)
    (bsz : ℕ) (dg ak : Bool) (hlt : bsz < 12) :
    (ram_console_init buffer bsz dg ak).registered = false ∧
    (ram_console_init buffer bsz dg ak).buffer = buffer ∧
    (ram_console_init buffer bsz dg ak).old_log = none ∧
    (ram_console_init buffer bsz dg ak).ret = 0 := by
  have habort := sub64_sizeof_lt hlt
  simp only [ram_console_init]
  rw [if_pos habort]
  exact ⟨rfl, rfl, rfl, rfl⟩

theorem ram_console_insufficient_capacity_witness :
    (ram_console_init ⟨1, 2, 3, fun _ => 0⟩ 4 false true).registered = false ∧
    (ram_console_init ⟨1, 2, 3, fun _ => 0⟩ 4 false true).buffer =
      (⟨1, 2, 3, fun _ => 0⟩ : ram_console_buffer) ∧
    (ram_console_init ⟨1, 2, 3, fun _ => 0⟩ 4 false true).old_log = none ∧
    (ram_console_init ⟨1, 2, 3, fun _ => 0⟩ 4 false true).ret = 0 :=
  ram_console_insufficient_capacity ⟨1, 2, 3, fun _ => 0⟩ 4 false true
    (by norm_num)

/-- Claim C10: `ram_console_init` returns 0 on every path — including the
insufficient-capacity aborts and (in the ECC configuration) the codec
allocation failure — so the platform probe, which returns this value,
cannot distinguish an aborted, inactive store from a successful one. -/
theorem ram_console_init_always_returns_zero :
    (∀ (buffer : ram_console_buffer) (bsz : ℕ) (dg ak : Bool),
      (ram_console_init buffer bsz dg ak).ret = 0) ∧
    (∀ (bsz bs esz : ℕ) (rs_ok : Bool),
      ram_console_init_ecc_ret bsz bs esz rs_ok = 0) := by
  constructor
  · intro buffer bsz dg ak
    simp only [ram_console_init]
    split_ifs <;> rfl
  · intro bsz bs esz rs_ok
    simp only [ram_console_init_ecc_ret]
    split_ifs <;> rfl

/-- The buffer plus the parity area (`ram_console_par_buffer`) of the ECC
configuration (CONFIG_ANDROID_RAM_CONSOLE_ERROR_CORRECTION).  The parity
area is addressed by parity-segment slot: slot `k` models the `ECC_SIZE`
bytes at `ram_console_par_buffer + k * ECC_SIZE`, holding one abstract
parity value. -/
structure ram_console_ecc_state where
  sig : ℕ
  start : ℕ
  size : ℕ
  data : ℕ → ℕ
  par : ℕ → ℕ

/-- The `len` data bytes of the block starting at byte offset `off`. -/
def blockData (d : ℕ → ℕ) (off len : ℕ) : List ℕ :=
  (List.range len).map (fun i => d (off + i))

/-- Store one parity segment. -/
def setSlot (p : ℕ → ℕ) (b v : ℕ) : ℕ → ℕ :=
  fun x => if x = b then v else p x

/-- The parity-recomputation do-while loop of `ram_console_update`
(ram_console.c:108-118).  Iteration `k` encodes the block starting at
`a0 + bs * k` bytes, where `a0 = bs * (start / bs)` is `start` rounded
down to a block boundary, into parity slot `start / bs + k` (the C code
advances `par` by `ECC_SIZE` per iteration from slot `start / bs`); a
do-while runs `max 1 ⌈(start + count - a0) / bs⌉` times.  A block
reaching past the data area is encoded over its remaining length (the C
local `size` can only shrink on the final iteration, since the next block
would start past `start + count ≤ cap` and the loop exits, so recomputing
the length per iteration is equivalent).  `enc` abstracts
`ram_console_encode_rs8`, modelled from the spec: `encode_rs8` lives in
the kernel's Reed-Solomon library outside this repository, so it is an
arbitrary function from a block's bytes to its parity segment. -/
def eccUpdatePar (cap bs : ℕ) (enc : List ℕ → ℕ) (d : ℕ → ℕ)
    (start count : ℕ) (par : ℕ → ℕ) : ℕ → ℕ :=
  (List.range (max 1 ((start + count - bs * (start / bs) + bs - 1) / bs))).foldl
    (fun p k =>
      let block := bs * (start / bs) + bs * k
      let len := if cap < block + bs then cap - block else bs
      setSlot p (start / bs + k) (enc (blockData d block len)))
    par

/-- Model of `ram_console_update` (ram_console.c:98-120), ECC configuration: the
`memcpy`, then parity recomputation from the updated data. -/
def ram_console_update_ecc (cap bs : ℕ) (enc : List ℕ → ℕ)
    (st : ram_console_ecc_state) (s : List ℕ) : ram_console_ecc_state :=
  { st with
    data := memcpy st.data st.start s,
    par := eccUpdatePar cap bs enc (memcpy st.data st.start s) st.start s.length st.par }

/-- Model of `ram_console_update_header` (ram_console.c:122-131): re-encode the
header into its dedicated parity segment at slot `DIV_ROUND_UP(cap, bs)`.
`encH` abstracts the parity of the 12 serialized header bytes (again via
the external `encode_rs8`). -/
def ram_console_update_header (cap bs : ℕ) (encH : ℕ → ℕ → ℕ → ℕ)
    (st : ram_console_ecc_state) : ram_console_ecc_state :=
  { st with par := setSlot st.par (DIV_ROUND_UP cap bs) (encH st.sig st.start st.size) }

/-- Model of `ram_console_write` (ram_console.c:133-157), ECC configuration
(mirrors `ram_console_write` with the ECC updates and the final
`ram_console_update_header`). -/
def ram_console_write_ecc (cap bs : ℕ) (enc : List ℕ → ℕ)
    (encH : ℕ → ℕ → ℕ → ℕ) (st : ram_console_ecc_state) (s0 : List ℕ) :
    ram_console_ecc_state :=
  let s := clampTail cap s0
  let rem := cap - st.start
  if rem < s.length then
    let st2 := { ram_console_update_ecc cap bs enc st (s.take rem) with
                   start := 0, size := cap }
    let st3 := ram_console_update_ecc cap bs enc st2 (s.drop rem)
    ram_console_update_header cap bs encH
      { st3 with start := st3.start + (s.drop rem).length,
                 size := if st3.size < cap then st3.size + (s.drop rem).length
                         else st3.size }
  else
    let st3 := ram_console_update_ecc cap bs enc st s
    ram_console_update_header cap bs encH
      { st3 with start := st3.start + s.length,
                 size := if st3.size < cap then st3.size + s.length else st3.size }

/-- Physical data position `j` lies in the circular range of an `n`-byte
append beginning at `start`. -/
def circTouched (cap start n j : ℕ) : Prop :=
  ∃ i, i < n ∧ j = (start + i) % cap

/-- Claim C9 as stated is false on the code: a write of 0 bytes
(`n ≤ data_capacity`) touches no data byte and no block, yet the do-while
loop in `ram_console_update` runs at least once and re-encodes the block
containing `start`, overwriting its parity slot; from a state whose parity
area does not already hold that encoding (for example right after
initialization, which never writes the parity area), a parity segment of
an untouched block changes. -/
theorem ram_console_ecc_zero_write_counterexample :
    (ram_console_write_ecc 4 4 (fun l => l.length) (fun _ _ _ => 0)
        ⟨0, 0, 0, fun _ => 0, fun _ => 99⟩ []).par 0 = 4 ∧
    ¬ (ram_console_write_ecc 4 4 (fun l => l.length) (fun _ _ _ => 0)
        ⟨0, 0, 0, fun _ => 0, fun _ => 99⟩ []).par 0 = 99 := by
  decide

theorem clampTail_eq_of_le {cap : ℕ} {s0 : List ℕ} (h : s0.length ≤ cap) :
    clampTail cap s0 = s0 := by
  unfold clampTail
  rw [if_neg (by omega)]

theorem setSlot_ne {p : ℕ → ℕ} {b v x : ℕ} (h : x ≠ b) : setSlot p b v x = p x := by
  simp [setSlot, h]

/-- A parity slot written by no iteration of the do-while loop keeps its
value. -/
theorem eccUpdatePar_frame {cap bs : ℕ} {enc : List ℕ → ℕ} {d : ℕ → ℕ}
    {start count : ℕ} {par : ℕ → ℕ} {b : ℕ}
    (hb : ∀ k < max 1 ((start + count - bs * (start / bs) + bs - 1) / bs),
      start / bs + k ≠ b) :
    eccUpdatePar cap bs enc d start count par b = par b := by
  unfold eccUpdatePar
  suffices h : ∀ (K : ℕ) (par : ℕ → ℕ), (∀ k < K, start / bs + k ≠ b) →
      (List.range K).foldl (fun p k =>
        let block := bs * (start / bs) + bs * k
        let len := if cap < block + bs then cap - block else bs
        setSlot p (start / bs + k) (enc (blockData d block len))) par b = par b by
    exact h _ par hb
  intro K
  induction K with
  | zero =>
    intro par _
    rfl
  | succ K ih =>
    intro par hb
    rw [List.range_succ, List.foldl_append, List.foldl_cons, List.foldl_nil]
    simp only
    rw [setSlot_ne (Ne.symm (hb K (Nat.lt_succ_self K)))]
    exact ih par (fun k hk => hb k (Nat.lt_succ_of_lt hk))

theorem lt_of_lt_ceil {bs k m : ℕ} (hbs : 0 < bs) (hk : k < (m + bs - 1) / bs) :
    bs * k < m := by
  have h2 : (k + 1) * bs ≤ m + bs - 1 := (Nat.le_div_iff_mul_le hbs).mp hk
  have h3 : (k + 1) * bs = bs * k + bs := by ring
  omega

theorem ceil_pos {bs m : ℕ} (hbs : 0 < bs) (hm : 0 < m) : 1 ≤ (m + bs - 1) / bs := by
  apply (Nat.le_div_iff_mul_le hbs).mpr
  omega

/-- Every parity slot written while copying a linear segment
`[σ, σ + cnt)` of the data area belongs to a block that intersects that
segment. -/
theorem segment_slot_touches (cap bs σ cnt b k : ℕ)
    (hbs : 0 < bs) (hcnt : 0 < cnt) (hstop : σ + cnt ≤ cap)
    (hk : k < max 1 ((σ + cnt - bs * (σ / bs) + bs - 1) / bs))
    (heq : σ / bs + k = b) :
    ∃ j, bs * b ≤ j ∧ j < min (bs * (b + 1)) cap ∧ σ ≤ j ∧ j < σ + cnt := by
  have ha0 : bs * (σ / bs) ≤ σ := by
    rw [Nat.mul_comm]
    exact Nat.div_mul_le_self σ bs
  have ha0' : σ < bs * (σ / bs) + bs := by
    have h1 := Nat.div_add_mod σ bs
    have h2 := Nat.mod_lt σ hbs
    omega
  have hKc : max 1 ((σ + cnt - bs * (σ / bs) + bs - 1) / bs) =
      (σ + cnt - bs * (σ / bs) + bs - 1) / bs := by
    have := ceil_pos hbs (show 0 < σ + cnt - bs * (σ / bs) by omega)
    omega
  rw [hKc] at hk
  have hblock : bs * k < σ + cnt - bs * (σ / bs) := lt_of_lt_ceil hbs hk
  have hb : bs * b = bs * (σ / bs) + bs * k := by
    rw [← heq, Nat.mul_add]
  have hb1 : bs * (b + 1) = bs * b + bs := by ring
  refine ⟨max (bs * (σ / bs) + bs * k) σ, ?_, ?_, ?_, ?_⟩ <;> omega

/-- Claim C9 (amended): a write of `n` bytes with `1 ≤ n ≤ data_capacity`,
from a state satisfying the header invariant `start < data_capacity`,
modifies only the data bytes at positions `start..start+n-1` taken
circularly, the parity segments of the blocks intersecting that range
(a partial final block being encoded over its remaining length), and the
header together with its parity segment: every data byte outside the
circular range, and every parity segment of a block disjoint from it other
than the header's, keeps its value — for every block size and every
encoder.  (For `n = 0`, or from the boundary state `start = data_capacity`
with a stale parity area, the do-while loop re-encodes one untouched
block; see the counterexample.) -/
theorem ram_console_ecc_write_frame (cap bs : ℕ) (enc : List ℕ → ℕ)
    (encH : ℕ → ℕ → ℕ → ℕ) (st : ram_console_ecc_state) (s0 : List ℕ)
    (hbs : 0 < bs) (hn : 0 < s0.length) (hncap : s0.length ≤ cap)
    (hstart : st.start < cap) :
    (∀ j, j < cap → ¬ circTouched cap st.start s0.length j →
      (ram_console_write_ecc cap bs enc encH st s0).data j = st.data j) ∧
    (∀ b, b ≠ DIV_ROUND_UP cap bs →
      (∀ j, bs * b ≤ j → j < min (bs * (b + 1)) cap →
        ¬ circTouched cap st.start s0.length j) →
      (ram_console_write_ecc cap bs enc encH st s0).par b = st.par b) := by
  simp only [ram_console_write_ecc, ram_console_update_ecc, ram_console_update_header,
    clampTail_eq_of_le hncap]
  by_cases hwrap : cap - st.start < s0.length
  · rw [if_pos hwrap]
    simp only
    have hdl : (List.drop (cap - st.start) s0).length = s0.length - (cap - st.start) :=
      List.length_drop _ _
    have htl : (List.take (cap - st.start) s0).length = cap - st.start := by
      rw [List.length_take]
      omega
    constructor
    · intro j hj hnt
      have hj2 : s0.length - (cap - st.start) ≤ j := by
        by_contra hcon
        push_neg at hcon
        exact hnt ⟨(cap - st.start) + j, by omega, by
          rw [mod_eq_sub_of_lt_two_mul (by omega) (by omega)] <;> omega⟩
      rw [memcpy_ge (by rw [hdl]; omega)]
      have hj3 : j < st.start := by
        by_contra hcon
        push_neg at hcon
        exact hnt ⟨j - st.start, by omega, by
          rw [Nat.mod_eq_of_lt (by omega)] <;> omega⟩
      rw [memcpy_lt hj3]
    · intro b hbne hdisj
      rw [setSlot_ne hbne]
      have hk2 : ∀ k < max 1 ((0 + (List.drop (cap - st.start) s0).length -
          bs * (0 / bs) + bs - 1) / bs), 0 / bs + k ≠ b := by
        intro k hk heq
        obtain ⟨j0, h1, h2, h3, h4⟩ := segment_slot_touches cap bs 0
          ((List.drop (cap - st.start) s0).length) b k hbs
          (by rw [hdl]; omega) (by rw [hdl]; omega) hk heq
        refine hdisj j0 h1 h2 ⟨(cap - st.start) + j0, ?_, ?_⟩
        · rw [hdl] at h4
          omega
        · rw [mod_eq_sub_of_lt_two_mul (by omega) (by omega)] <;> omega
      have hk1 : ∀ k < max 1 ((st.start + (List.take (cap - st.start) s0).length -
          bs * (st.start / bs) + bs - 1) / bs), st.start / bs + k ≠ b := by
        intro k hk heq
        obtain ⟨j0, h1, h2, h3, h4⟩ := segment_slot_touches cap bs st.start
          ((List.take (cap - st.start) s0).length) b k hbs
          (by rw [htl]; omega) (by rw [htl]; omega) hk heq
        refine hdisj j0 h1 h2 ⟨j0 - st.start, ?_, ?_⟩
        · rw [htl] at h4
          omega
        · rw [Nat.mod_eq_of_lt (by omega)] <;> omega
      rw [eccUpdatePar_frame hk2, eccUpdatePar_frame hk1]
  · rw [if_neg hwrap]
    simp only
    constructor
    · intro j hj hnt
      rcases Nat.lt_or_ge j st.start with h1 | h1
      · rw [memcpy_lt h1]
      · have h2 : st.start + s0.length ≤ j := by
          by_contra hcon
          push_neg at hcon
          exact hnt ⟨j - st.start, by omega, by
            rw [Nat.mod_eq_of_lt (by omega)] <;> omega⟩
        rw [memcpy_ge h2]
    · intro b hbne hdisj
      rw [setSlot_ne hbne]
      have hk1 : ∀ k < max 1 ((st.start + s0.length - bs * (st.start / bs) + bs - 1) / bs),
          st.start / bs + k ≠ b := by
        intro k hk heq
        obtain ⟨j0, h1, h2, h3, h4⟩ := segment_slot_touches cap bs st.start s0.length b k
          hbs hn (by omega) hk heq
        refine hdisj j0 h1 h2 ⟨j0 - st.start, by omega, ?_⟩
        rw [Nat.mod_eq_of_lt (by omega)] <;> omega
      rw [eccUpdatePar_frame hk1]

theorem ram_console_ecc_write_frame_witness :
    (ram_console_write_ecc 8 4 (fun l => l.sum) (fun a b c => a + b + c)
        ⟨0, 1, 1, fun _ => 7, fun _ => 3⟩ [9]).data 5 = 7 ∧
    (ram_console_write_ecc 8 4 (fun l => l.sum) (fun a b c => a + b + c)
        ⟨0, 1, 1, fun _ => 7, fun _ => 3⟩ [9]).par 1 = 3 := by
  have h := ram_console_ecc_write_frame 8 4 (fun l => l.sum) (fun a b c => a + b + c)
    ⟨0, 1, 1, fun _ => 7, fun _ => 3⟩ [9] (by decide) (by decide) (by decide) (by decide)
  constructor
  · exact h.1 5 (by decide) (by
      intro hc
      obtain ⟨i, hi, hj⟩ := hc
      simp at hi hj
      omega)
  · exact h.2 1 (by decide) (by
      intro j h1 h2 hc
      obtain ⟨i, hi, hj⟩ := hc
      simp at hi hj
      omega)
